import Mathlib

/-!
Verification of the rsml-cli incremental build orchestrator.

Shallow embedding of the sources:
* `src/multibimap/mod.rs` — the bidirectional multi-valued map (`MultiBiMap`);
* `src/main.rs` — the watcher context: event handling, compile propagation,
  delete handling, subtree pruning and directory-scan cleanup;
* `src/rsml_to_model_json.rs` — the direction in which dependency edges are
  registered while a file is compiled;
* `src/luaurc/mod.rs` — the alias table, its deserializer and the sorted-merge
  diff;
* `src/normalize_path.rs` — the pure path normalizer.

Modelling conventions: Rust `BTreeMap<K, V>` becomes a `Finset K` of present
keys together with a value function `K → V` that is only ever read at present
keys (reads are membership-guarded, exactly like `BTreeMap::get`); `HashSet`
values become `Finset`; paths become `Nat` identifiers except where the
component structure matters (`prune` uses `List String` components, the
normalizer uses explicit component lists).  Fallible Rust code becomes
`Option`/`Except`.
-/

/-! ## MultiBiMap (src/multibimap/mod.rs) -/

/-- Embedding of `MultiBiMap<L, R>`: `left_to_right: BTreeMap<L, HashSet<R>>`
and `right_to_left: BTreeMap<R, HashSet<L>>`.  Each `BTreeMap` is modelled as
the finite set of present keys plus a value function; the value function is
never consulted at absent keys. -/
structure MultiBiMap (L R : Type) where
  leftKeys : Finset L
  rightKeys : Finset R
  ltr : L → Finset R
  rtl : R → Finset L

namespace MultiBiMap

variable {L R : Type} [DecidableEq L] [DecidableEq R]

/-- `MultiBiMap::new`: both maps empty. -/
def new : MultiBiMap L R :=
  { leftKeys := ∅, rightKeys := ∅, ltr := fun _ => ∅, rtl := fun _ => ∅ }

/-- `get_by_left`: `self.left_to_right.get(left)`. -/
def get_by_left (s : MultiBiMap L R) (l : L) : Option (Finset R) :=
  if l ∈ s.leftKeys then some (s.ltr l) else none

/-- `get_by_right`: `self.right_to_left.get(right)`. -/
def get_by_right (s : MultiBiMap L R) (r : R) : Option (Finset L) :=
  if r ∈ s.rightKeys then some (s.rtl r) else none

/-- `MultiBiMap::insert`: `left_to_right.entry(left).or_insert(empty)` gains
`right`, and `right_to_left.entry(right).or_insert(empty)` gains `left`.
The `entry(..).or_insert(empty)` idiom is the membership-guarded read. -/
def insert (s : MultiBiMap L R) (l : L) (r : R) : MultiBiMap L R :=
  { leftKeys := Insert.insert l s.leftKeys
    rightKeys := Insert.insert r s.rightKeys
    ltr := fun x =>
      if x = l then Insert.insert r (if l ∈ s.leftKeys then s.ltr l else ∅) else s.ltr x
    rtl := fun y =>
      if y = r then Insert.insert l (if r ∈ s.rightKeys then s.rtl r else ∅) else s.rtl y }

/-- `MultiBiMap::insert_by_left`: `left_to_right.entry(left).or_insert(empty)`,
creating the key with an empty set when absent; the right map is untouched. -/
def insert_by_left (s : MultiBiMap L R) (l : L) : MultiBiMap L R :=
  { s with
    leftKeys := Insert.insert l s.leftKeys
    ltr := fun x =>
      if x = l then (if l ∈ s.leftKeys then s.ltr l else ∅) else s.ltr x }

/-- `MultiBiMap::insert_by_right`: mirror of `insert_by_left`. -/
def insert_by_right (s : MultiBiMap L R) (r : R) : MultiBiMap L R :=
  { s with
    rightKeys := Insert.insert r s.rightKeys
    rtl := fun y =>
      if y = r then (if r ∈ s.rightKeys then s.rtl r else ∅) else s.rtl y }

/-- `MultiBiMap::remove_by_left`: when `left` is present, for every `right` in
its set the reverse entry either loses the whole key (when its set has exactly
one element) or loses `left`; finally the `left` key itself is removed.  The
Rust loop touches a distinct `right_to_left` entry in every iteration, so it is
embedded pointwise. -/
def remove_by_left (s : MultiBiMap L R) (l : L) : MultiBiMap L R :=
  if l ∈ s.leftKeys then
    { leftKeys := s.leftKeys.erase l
      rightKeys := s.rightKeys.filter fun r => ¬(r ∈ s.ltr l ∧ (s.rtl r).card = 1)
      ltr := s.ltr
      rtl := fun r =>
        if r ∈ s.ltr l ∧ r ∈ s.rightKeys ∧ (s.rtl r).card ≠ 1 then
          (s.rtl r).erase l
        else s.rtl r }
  else
    { s with leftKeys := s.leftKeys.erase l }

/-- `MultiBiMap::remove_by_right`: mirror of `remove_by_left`. -/
def remove_by_right (s : MultiBiMap L R) (r : R) : MultiBiMap L R :=
  if r ∈ s.rightKeys then
    { leftKeys := s.leftKeys.filter fun l => ¬(l ∈ s.rtl r ∧ (s.ltr l).card = 1)
      rightKeys := s.rightKeys.erase r
      ltr := fun l =>
        if l ∈ s.rtl r ∧ l ∈ s.leftKeys ∧ (s.ltr l).card ≠ 1 then
          (s.ltr l).erase r
        else s.ltr l
      rtl := s.rtl }
  else
    { s with rightKeys := s.rightKeys.erase r }

/-- One operation of the public mutating interface of `MultiBiMap`. -/
inductive Op (L R : Type) where
  | insert (l : L) (r : R)
  | insert_by_left (l : L)
  | insert_by_right (r : R)
  | remove_by_left (l : L)
  | remove_by_right (r : R)

/-- Apply one operation. -/
def applyOp (s : MultiBiMap L R) : Op L R → MultiBiMap L R
  | .insert l r => s.insert l r
  | .insert_by_left l => s.insert_by_left l
  | .insert_by_right r => s.insert_by_right r
  | .remove_by_left l => s.remove_by_left l
  | .remove_by_right r => s.remove_by_right r

/-- Run a sequence of operations from the empty map. -/
def run (ops : List (Op L R)) : MultiBiMap L R :=
  ops.foldl applyOp new

/-- Whether the key-only registration operations occur; these are the ones that
deliberately create a key bound to an empty set. -/
def Op.isKeyOnly : Op L R → Bool
  | .insert_by_left _ => true
  | .insert_by_right _ => true
  | _ => false

/-- Edge membership as seen through `left_to_right`. -/
def memLR (s : MultiBiMap L R) (l : L) (r : R) : Prop :=
  l ∈ s.leftKeys ∧ r ∈ s.ltr l

/-- Edge membership as seen through `right_to_left`. -/
def memRL (s : MultiBiMap L R) (l : L) (r : R) : Prop :=
  r ∈ s.rightKeys ∧ l ∈ s.rtl r

/-- The bidirectional invariant: both maps are exact inverses. -/
def Inv (s : MultiBiMap L R) : Prop :=
  ∀ l r, memLR s l r ↔ memRL s l r

/-- No present key is bound to an empty set. -/
def NoEmpty (s : MultiBiMap L R) : Prop :=
  (∀ l ∈ s.leftKeys, s.ltr l ≠ ∅) ∧ (∀ r ∈ s.rightKeys, s.rtl r ≠ ∅)

theorem memLR_get_by_left {s : MultiBiMap L R} {l : L} {r : R} :
    (∃ t, s.get_by_left l = some t ∧ r ∈ t) ↔ memLR s l r := by
  unfold get_by_left memLR
  by_cases h : l ∈ s.leftKeys <;> simp [h]

theorem memRL_get_by_right {s : MultiBiMap L R} {l : L} {r : R} :
    (∃ t, s.get_by_right r = some t ∧ l ∈ t) ↔ memRL s l r := by
  unfold get_by_right memRL
  by_cases h : r ∈ s.rightKeys <;> simp [h]

theorem inv_new : Inv (new : MultiBiMap L R) := by
  intro l r
  simp [new, memLR, memRL]

theorem memLR_insert {s : MultiBiMap L R} {l x : L} {r y : R} :
    memLR (s.insert l r) x y ↔
      (if x = l then y = r ∨ memLR s l y else memLR s x y) := by
  unfold memLR MultiBiMap.insert
  by_cases hx : x = l
  · subst hx
    by_cases hl : x ∈ s.leftKeys <;> simp [hl]
  · simp [hx]

theorem memRL_insert {s : MultiBiMap L R} {l x : L} {r y : R} :
    memRL (s.insert l r) x y ↔
      (if y = r then x = l ∨ memRL s x r else memRL s x y) := by
  unfold memRL MultiBiMap.insert
  by_cases hy : y = r
  · subst hy
    by_cases hr : y ∈ s.rightKeys <;> simp [hr]
  · simp [hy]

theorem memLR_insert_by_left {s : MultiBiMap L R} {l x : L} {y : R} :
    memLR (s.insert_by_left l) x y ↔
      (if x = l then memLR s l y else memLR s x y) := by
  unfold memLR insert_by_left
  by_cases hx : x = l
  · subst hx
    by_cases hl : x ∈ s.leftKeys <;> simp [hl]
  · simp [hx]

theorem memRL_insert_by_left {s : MultiBiMap L R} {l x : L} {y : R} :
    memRL (s.insert_by_left l) x y ↔ memRL s x y :=
  Iff.rfl

theorem memRL_insert_by_right {s : MultiBiMap L R} {x : L} {r y : R} :
    memRL (s.insert_by_right r) x y ↔
      (if y = r then memRL s x r else memRL s x y) := by
  unfold memRL insert_by_right
  by_cases hy : y = r
  · subst hy
    by_cases hr : y ∈ s.rightKeys <;> simp [hr]
  · simp [hy]

theorem memLR_insert_by_right {s : MultiBiMap L R} {x : L} {r y : R} :
    memLR (s.insert_by_right r) x y ↔ memLR s x y :=
  Iff.rfl

theorem memLR_remove_by_left {s : MultiBiMap L R} {l x : L} {y : R} :
    memLR (s.remove_by_left l) x y ↔ (x ≠ l ∧ memLR s x y) := by
  unfold memLR remove_by_left
  by_cases hl : l ∈ s.leftKeys
  · simp [hl, Finset.mem_erase, and_assoc]
  · simp [hl, Finset.mem_erase, and_assoc]
    intro hx _ hxl
    exact hl (hxl ▸ hx)

theorem memRL_remove_by_right {s : MultiBiMap L R} {x : L} {r y : R} :
    memRL (s.remove_by_right r) x y ↔ (y ≠ r ∧ memRL s x y) := by
  unfold memRL remove_by_right
  by_cases hr : r ∈ s.rightKeys
  · simp [hr, Finset.mem_erase, and_assoc]
  · simp [hr, Finset.mem_erase, and_assoc]
    intro hy _ hyr
    exact hr (hyr ▸ hy)

theorem memRL_remove_by_left {s : MultiBiMap L R} (hs : Inv s) {l x : L} {y : R} :
    memRL (s.remove_by_left l) x y ↔ (x ≠ l ∧ memRL s x y) := by
  unfold remove_by_left
  by_cases hl : l ∈ s.leftKeys
  · simp only [hl, if_true]
    unfold memRL
    simp only [Finset.mem_filter]
    by_cases hyl : y ∈ s.ltr l
    · have hmem : memRL s l y := (hs l y).mp ⟨hl, hyl⟩
      by_cases hcard : (s.rtl y).card = 1
      · have hsing : s.rtl y = {l} := by
          rcases Finset.card_eq_one.mp hcard with ⟨a, ha⟩
          have : l ∈ s.rtl y := hmem.2
          rw [ha] at this ⊢
          simp only [Finset.mem_singleton] at this
          rw [this]
        constructor
        · rintro ⟨⟨_, hP⟩, _⟩
          exact absurd ⟨hyl, hcard⟩ hP
        · rintro ⟨hxl, _, hx2⟩
          rw [hsing] at hx2
          simp only [Finset.mem_singleton] at hx2
          exact absurd hx2 hxl
      · simp [hyl, hmem.1, hcard, Finset.mem_erase]
    · have hne : ¬(y ∈ s.ltr l ∧ y ∈ s.rightKeys ∧ (s.rtl y).card ≠ 1) := by
        intro h
        exact hyl h.1
      simp only [if_neg hne, hyl, false_and, not_false_iff, and_true]
      constructor
      · rintro ⟨h1, h2⟩
        refine ⟨?_, h1, h2⟩
        rintro rfl
        exact hyl ((hs x y).mpr ⟨h1, h2⟩).2
      · rintro ⟨_, h1, h2⟩
        exact ⟨h1, h2⟩
  · simp only [hl, if_false]
    have : memRL { s with leftKeys := s.leftKeys.erase l } x y ↔ memRL s x y :=
      Iff.rfl
    rw [this]
    constructor
    · intro h
      refine ⟨?_, h⟩
      rintro rfl
      exact hl ((hs x y).mpr h).1
    · exact fun h => h.2

theorem memLR_remove_by_right {s : MultiBiMap L R} (hs : Inv s) {x : L} {r y : R} :
    memLR (s.remove_by_right r) x y ↔ (y ≠ r ∧ memLR s x y) := by
  unfold remove_by_right
  by_cases hr : r ∈ s.rightKeys
  · simp only [hr, if_true]
    unfold memLR
    simp only [Finset.mem_filter]
    by_cases hxr : x ∈ s.rtl r
    · have hmem : memLR s x r := (hs x r).mpr ⟨hr, hxr⟩
      by_cases hcard : (s.ltr x).card = 1
      · have hsing : s.ltr x = {r} := by
          rcases Finset.card_eq_one.mp hcard with ⟨a, ha⟩
          have : r ∈ s.ltr x := hmem.2
          rw [ha] at this ⊢
          simp only [Finset.mem_singleton] at this
          rw [this]
        constructor
        · rintro ⟨⟨_, hP⟩, _⟩
          exact absurd ⟨hxr, hcard⟩ hP
        · rintro ⟨hyr, _, hy2⟩
          rw [hsing] at hy2
          simp only [Finset.mem_singleton] at hy2
          exact absurd hy2 hyr
      · simp [hxr, hmem.1, hcard, Finset.mem_erase]
    · have hne : ¬(x ∈ s.rtl r ∧ x ∈ s.leftKeys ∧ (s.ltr x).card ≠ 1) := by
        intro h
        exact hxr h.1
      simp only [if_neg hne, hxr, false_and, not_false_iff, and_true]
      constructor
      · rintro ⟨h1, h2⟩
        refine ⟨?_, h1, h2⟩
        rintro rfl
        exact hxr ((hs x y).mp ⟨h1, h2⟩).2
      · rintro ⟨_, h1, h2⟩
        exact ⟨h1, h2⟩
  · simp only [hr, if_false]
    have : memLR { s with rightKeys := s.rightKeys.erase r } x y ↔ memLR s x y :=
      Iff.rfl
    rw [this]
    constructor
    · intro h
      refine ⟨?_, h⟩
      rintro rfl
      exact hr ((hs x y).mp h).1
    · exact fun h => h.2

theorem inv_insert {s : MultiBiMap L R} (hs : Inv s) (l : L) (r : R) :
    Inv (s.insert l r) := by
  intro x y
  rw [memLR_insert, memRL_insert]
  by_cases hx : x = l <;> by_cases hy : y = r <;>
    simp only [hx, hy, if_true, if_false, if_pos, if_neg] <;>
    [skip; skip; skip; exact hs x y]
  · simp
  · have := hs l y
    simp [hy, this]
  · have := hs x r
    simp [hx, this]

theorem inv_insert_by_left {s : MultiBiMap L R} (hs : Inv s) (l : L) :
    Inv (s.insert_by_left l) := by
  intro x y
  rw [memLR_insert_by_left, memRL_insert_by_left]
  by_cases hx : x = l
  · simp only [hx, if_true]
    exact hs l y
  · simp only [hx, if_false]
    exact hs x y

theorem inv_insert_by_right {s : MultiBiMap L R} (hs : Inv s) (r : R) :
    Inv (s.insert_by_right r) := by
  intro x y
  rw [memLR_insert_by_right, memRL_insert_by_right]
  by_cases hy : y = r
  · simp only [hy, if_true]
    exact hs x r
  · simp only [hy, if_false]
    exact hs x y

theorem inv_remove_by_left {s : MultiBiMap L R} (hs : Inv s) (l : L) :
    Inv (s.remove_by_left l) := by
  intro x y
  rw [memLR_remove_by_left, memRL_remove_by_left hs]
  exact and_congr_right fun _ => hs x y

theorem inv_remove_by_right {s : MultiBiMap L R} (hs : Inv s) (r : R) :
    Inv (s.remove_by_right r) := by
  intro x y
  rw [memLR_remove_by_right hs, memRL_remove_by_right]
  exact and_congr_right fun _ => hs x y

theorem inv_applyOp {s : MultiBiMap L R} (hs : Inv s) (op : Op L R) :
    Inv (applyOp s op) := by
  cases op with
  | insert l r => exact inv_insert hs l r
  | insert_by_left l => exact inv_insert_by_left hs l
  | insert_by_right r => exact inv_insert_by_right hs r
  | remove_by_left l => exact inv_remove_by_left hs l
  | remove_by_right r => exact inv_remove_by_right hs r

theorem inv_foldl {s : MultiBiMap L R} (hs : Inv s) (ops : List (Op L R)) :
    Inv (ops.foldl applyOp s) := by
  induction ops generalizing s with
  | nil => exact hs
  | cons op ops ih => exact ih (inv_applyOp hs op)

theorem inv_run (ops : List (Op L R)) : Inv (run ops) :=
  inv_foldl inv_new ops

theorem noempty_new : NoEmpty (new : MultiBiMap L R) := by
  constructor <;> intro x hx <;> simp [new] at hx

theorem noempty_insert {s : MultiBiMap L R} (h : NoEmpty s) (l : L) (r : R) :
    NoEmpty (s.insert l r) := by
  constructor
  · intro x hx
    unfold MultiBiMap.insert at hx ⊢
    simp only [Finset.mem_insert] at hx
    by_cases hxl : x = l
    · simp only [hxl, if_true]
      exact Finset.insert_ne_empty _ _
    · simp only [hxl, if_false]
      rcases hx with hx | hx
      · exact absurd hx hxl
      · exact h.1 x hx
  · intro y hy
    unfold MultiBiMap.insert at hy ⊢
    simp only [Finset.mem_insert] at hy
    by_cases hyr : y = r
    · simp only [hyr, if_true]
      exact Finset.insert_ne_empty _ _
    · simp only [hyr, if_false]
      rcases hy with hy | hy
      · exact absurd hy hyr
      · exact h.2 y hy

theorem erase_ne_empty_of_card_ne_one {α : Type} [DecidableEq α]
    {t : Finset α} (hne : t ≠ ∅) (hcard : t.card ≠ 1) (a : α) :
    t.erase a ≠ ∅ := by
  by_cases hm : a ∈ t
  · have h1 : 1 ≤ t.card := Finset.card_pos.mpr ⟨a, hm⟩
    have h2 : 2 ≤ t.card := by omega
    have h3 : (t.erase a).card = t.card - 1 := Finset.card_erase_of_mem hm
    intro hc
    rw [hc] at h3
    simp at h3
    omega
  · rw [Finset.erase_eq_of_not_mem hm]
    exact hne

theorem noempty_remove_by_left {s : MultiBiMap L R} (h : NoEmpty s) (l : L) :
    NoEmpty (s.remove_by_left l) := by
  unfold remove_by_left
  by_cases hl : l ∈ s.leftKeys
  · simp only [hl, if_true]
    constructor
    · intro x hx
      exact h.1 x (Finset.mem_of_mem_erase hx)
    · intro y hy
      rw [Finset.mem_filter] at hy
      dsimp only
      split
      next hc => exact erase_ne_empty_of_card_ne_one (h.2 y hy.1) hc.2.2 l
      next => exact h.2 y hy.1
  · simp only [hl, if_false]
    constructor
    · intro x hx
      exact h.1 x (Finset.mem_of_mem_erase hx)
    · intro y hy
      exact h.2 y hy

theorem noempty_remove_by_right {s : MultiBiMap L R} (h : NoEmpty s) (r : R) :
    NoEmpty (s.remove_by_right r) := by
  unfold remove_by_right
  by_cases hr : r ∈ s.rightKeys
  · simp only [hr, if_true]
    constructor
    · intro x hx
      rw [Finset.mem_filter] at hx
      dsimp only
      split
      next hc => exact erase_ne_empty_of_card_ne_one (h.1 x hx.1) hc.2.2 r
      next => exact h.1 x hx.1
    · intro y hy
      exact h.2 y (Finset.mem_of_mem_erase hy)
  · simp only [hr, if_false]
    constructor
    · intro x hx
      exact h.1 x hx
    · intro y hy
      exact h.2 y (Finset.mem_of_mem_erase hy)

theorem noempty_applyOp {s : MultiBiMap L R} (h : NoEmpty s) {op : Op L R}
    (hop : op.isKeyOnly = false) : NoEmpty (applyOp s op) := by
  cases op with
  | insert l r => exact noempty_insert h l r
  | insert_by_left l => simp [Op.isKeyOnly] at hop
  | insert_by_right r => simp [Op.isKeyOnly] at hop
  | remove_by_left l => exact noempty_remove_by_left h l
  | remove_by_right r => exact noempty_remove_by_right h r

theorem noempty_foldl {s : MultiBiMap L R} (h : NoEmpty s) {ops : List (Op L R)}
    (hops : ∀ op ∈ ops, op.isKeyOnly = false) :
    NoEmpty (ops.foldl applyOp s) := by
  induction ops generalizing s with
  | nil => exact h
  | cons op ops ih =>
    exact ih (noempty_applyOp h (hops op (List.mem_cons_self op ops))) fun o ho =>
      hops o (List.mem_cons_of_mem _ ho)

theorem get_by_left_eq_some {s : MultiBiMap L R} {l : L} {t : Finset R}
    (h : s.get_by_left l = some t) : l ∈ s.leftKeys ∧ t = s.ltr l := by
  unfold get_by_left at h
  by_cases hl : l ∈ s.leftKeys
  · rw [if_pos hl] at h
    exact ⟨hl, (Option.some_injective _ h).symm⟩
  · rw [if_neg hl] at h
    exact absurd h (Option.noConfusion)

theorem get_by_right_eq_some {s : MultiBiMap L R} {r : R} {t : Finset L}
    (h : s.get_by_right r = some t) : r ∈ s.rightKeys ∧ t = s.rtl r := by
  unfold get_by_right at h
  by_cases hr : r ∈ s.rightKeys
  · rw [if_pos hr] at h
    exact ⟨hr, (Option.some_injective _ h).symm⟩
  · rw [if_neg hr] at h
    exact absurd h (Option.noConfusion)

end MultiBiMap

/-! ## Claim C1 — MultiBiMap invariant under operation sequences -/

/-- C1, as stated, is false: the claim includes `insert_by_left` /
`insert_by_right` in the operation alphabet and asserts that no key present in
either direction maps to an empty set, but `insert_by_left` deliberately
creates its key with an empty associated set (`entry(..).or_insert(HashSet::new())`).
Concretely, after the single operation `insert_by_left 0` the left key `0` is
present and bound to the empty set. -/
theorem claim_c1_counterexample :
    ¬ (∀ ops : List (MultiBiMap.Op ℕ ℕ),
        ∀ l t, (MultiBiMap.run ops).get_by_left l = some t → t ≠ ∅) := by
  intro h
  exact h [MultiBiMap.Op.insert_by_left 0] 0 ∅ (by decide) rfl

/-- C1 (amended): for every finite sequence of `insert` / `insert_by_left` /
`insert_by_right` / `remove_by_left` / `remove_by_right` starting from the
empty map, membership through `get_by_left` and through `get_by_right` are
exact inverses; moreover, when the sequence avoids the key-only registration
operations `insert_by_left` / `insert_by_right`, no key present in either
direction maps to an empty set. -/
theorem claim_c1_theorem {L R : Type} [DecidableEq L] [DecidableEq R]
    (ops : List (MultiBiMap.Op L R)) :
    (∀ l r, (∃ t, (MultiBiMap.run ops).get_by_left l = some t ∧ r ∈ t) ↔
      (∃ t, (MultiBiMap.run ops).get_by_right r = some t ∧ l ∈ t)) ∧
    ((∀ op ∈ ops, op.isKeyOnly = false) →
      (∀ l t, (MultiBiMap.run ops).get_by_left l = some t → t ≠ ∅) ∧
      (∀ r t, (MultiBiMap.run ops).get_by_right r = some t → t ≠ ∅)) := by
  constructor
  · intro l r
    rw [MultiBiMap.memLR_get_by_left, MultiBiMap.memRL_get_by_right]
    exact MultiBiMap.inv_run ops l r
  · intro hops
    have h : MultiBiMap.NoEmpty (MultiBiMap.run ops) :=
      MultiBiMap.noempty_foldl MultiBiMap.noempty_new hops
    constructor
    · intro l t ht
      rcases MultiBiMap.get_by_left_eq_some ht with ⟨hl, rfl⟩
      exact h.1 l hl
    · intro r t ht
      rcases MultiBiMap.get_by_right_eq_some ht with ⟨hr, rfl⟩
      exact h.2 r hr

/-- Witness for C1: instantiating the amended theorem at the concrete sequence
`[insert 0 1]` over natural-number keys. -/
theorem claim_c1_witness :
    (MultiBiMap.run [MultiBiMap.Op.insert (0 : ℕ) (1 : ℕ)]).get_by_left 0 ≠ some ∅ := by
  intro hc
  have h := (claim_c1_theorem [MultiBiMap.Op.insert (0 : ℕ) (1 : ℕ)]).2
    (by intro op hop; simp at hop; subst hop; rfl)
  exact h.1 0 ∅ hc rfl

/-! ## Build orchestrator (src/main.rs, src/rsml_to_model_json.rs)

Paths are modelled as natural-number identifiers.  `derivesOf p` is the list of
derive targets discovered while compiling `p` (the paths passed to
`watcher.dependencies.insert(derive_path, path)` by
`parse_macros_from_derives`, which always registers the edge with the derive
target on the left and the compiled file on the right). -/

/-- Edge registration during one compilation of `path`, abstracted: the
edges `watcher.dependencies.insert(derive_path, path)` that
`parse_macros_from_derives` registers when its traversal terminates.  The
traversal itself, whose recursion is unbounded on derive cycles, is embedded
faithfully as `parse_macros_from_derives` in the C8 section; this
abstraction is used only in scenarios whose derive sets are acyclic, where
the real traversal terminates and registers exactly these edges. -/
def registerDeps (derivesOf : ℕ → List ℕ) (g : MultiBiMap ℕ ℕ) (path : ℕ) :
    MultiBiMap ℕ ℕ :=
  (derivesOf path).foldl (fun g d => g.insert d path) g

/-- `WatcherContext::create_file` with `CreateFileDependencies::True(referent)`:
compile `path` (registering its dependency edges and writing the artifact,
recorded here by appending `path` to the compiled list), then look up
`self.dependencies.get_by_right(path)` — a `None` result returns early via
`guarded_unwrap` — and recurse into every member of that set except the
referent.  `fuel` bounds the recursion depth (the Rust recursion has no such
bound; `none` models non-termination within the given depth).  Sibling
iterations share the parent's remaining fuel, so `some` at fuel `n` means the
call tree has depth at most `n`. -/
def create_file (derivesOf : ℕ → List ℕ) :
    ℕ → MultiBiMap ℕ ℕ → ℕ → Option ℕ → Option (MultiBiMap ℕ ℕ × List ℕ)
  | 0, _, _, _ => none
  | fuel + 1, g, path, referent =>
    let g1 := registerDeps derivesOf g path
    match g1.get_by_right path with
    | none => some (g1, [path])
    | some dependants =>
      let targets := match referent with
        | some referent_path => (dependants.sort (· ≤ ·)).filter (fun d => d != referent_path)
        | none => dependants.sort (· ≤ ·)
      match targets.foldl (fun acc d =>
          match acc with
          | none => none
          | some (g, compiled) =>
            match create_file derivesOf fuel g d (some path) with
            | none => none
            | some (g2, c2) => some (g2, compiled ++ c2)) (some (g1, [])) with
      | none => none
      | some (g2, compiled) => some (g2, path :: compiled)

/-- `WatcherContext::handle_vfs_event`, branch "path is an existing `.rsml`
file": `self.dependencies.remove_by_left(path.clone())` followed by
`self.create_file(&path, CreateFileDependencies::True(None))`. -/
def handle_edit_compile (derivesOf : ℕ → List ℕ) (fuel : ℕ)
    (g : MultiBiMap ℕ ℕ) (path : ℕ) : Option (MultiBiMap ℕ ℕ × List ℕ) :=
  create_file derivesOf fuel (g.remove_by_left path) path none

/-- `WatcherContext::handle_vfs_event`, branch "path no longer exists and has
the `.rsml` extension" (Delete Single File): the artifact is removed, then
`self.dependencies.remove_by_left(path)` and, when a configuration is bound,
`luaurc.dependants.remove_by_right(path)`.  Alias names are modelled as
strings, dependent files as numbers, mirroring `MultiBiMap<String, PathBuf>`. -/
def delete_single_file (g : MultiBiMap ℕ ℕ) (luaurc : Option (MultiBiMap String ℕ))
    (path : ℕ) : MultiBiMap ℕ ℕ × Option (MultiBiMap String ℕ) :=
  (g.remove_by_left path, luaurc.map fun dependants => dependants.remove_by_right path)

/-- A source layout in which file `1` derives file `0` and file `0` has no
derives; compiling `1` registers the edge `(0, 1)` (antecedent `0`,
dependent `1`). -/
def demo_derives : ℕ → List ℕ := fun x => if x = 1 then [0] else []

/-! ## Claims C2 and C3 — propagation and pre-compile cleanup direction -/

/-- C2: the claim (and §4.3 of the specification) says that after writing the
artifact, the orchestrator recompiles the set of files for which `path` is the
antecedent, i.e. `get_by_left(path)`.  The code instead calls
`self.dependencies.get_by_right(path)`, which — edges being registered as
`insert(derive_path, path)`, antecedent on the left — returns the antecedents
of `path`, not its dependents.  At the failing input (file `1` derives file
`0`, so the graph holds the edge `(0, 1)`; file `0` is then edited), the
dependent set `get_by_left 0 = {1}` is non-empty, yet the edit pipeline
compiles only `[0]` and never recompiles the dependent `1`. -/
theorem claim_c2_theorem :
    (MultiBiMap.new.insert 0 1).get_by_left 0 = some {1} ∧
    (handle_edit_compile demo_derives 5 (MultiBiMap.new.insert 0 1) 0).map Prod.snd
      = some [0] := by
  constructor <;> decide

/-- C3: the claim (and §3/§4.3 of the specification) says that before the
Compiler runs on `path`, every edge with `path` as the dependent (right) value
is removed.  The code instead calls `self.dependencies.remove_by_left(path)`.
At the failing input the graph holds the edge `(0, 1)` (file `1` previously
derived file `0`); file `1` is edited so that it no longer derives anything.
The pre-compile cleanup `remove_by_left 1` leaves the stale edge untouched
(`get_by_right 1` still returns `{0}`), and it survives the whole edit
pipeline. -/
theorem claim_c3_theorem :
    ((MultiBiMap.new.insert 0 1).remove_by_left 1).get_by_right 1 = some {0} ∧
    (handle_edit_compile (fun _ => []) 5 (MultiBiMap.new.insert 0 1) 1).map
      (fun x => x.1.get_by_right 1) = some (some {0}) := by
  constructor
  · decide
  · have h1 : ((MultiBiMap.new.insert 0 1).remove_by_left 1).get_by_right 1
        = some {0} := by decide
    have h2 : ((MultiBiMap.new.insert 0 1).remove_by_left 1).get_by_right 0
        = none := by decide
    simp only [handle_edit_compile, create_file, registerDeps, List.foldl, h1, h2,
      Finset.sort_singleton, List.nil_append, Option.map_some']

/-! ## Claim C4 — Delete Single File -/

namespace MultiBiMap

theorem get_by_left_remove_by_left_self {s : MultiBiMap L R} [DecidableEq L]
    [DecidableEq R] {l : L} : (s.remove_by_left l).get_by_left l = none := by
  unfold remove_by_left get_by_left
  by_cases hl : l ∈ s.leftKeys <;> simp [hl]

theorem get_by_right_remove_by_right_self {s : MultiBiMap L R} [DecidableEq L]
    [DecidableEq R] {r : R} : (s.remove_by_right r).get_by_right r = none := by
  unfold remove_by_right get_by_right
  by_cases hr : r ∈ s.rightKeys <;> simp [hr]

end MultiBiMap

/-- C4, as stated, is false: Delete Single File runs
`dependencies.remove_by_left(path)`, which erases `path` from the antecedent
side but leaves every edge in which `path` is the dependent (right) value.
Concretely, with the single edge `(0, 1)` (file `1` derives file `0`),
deleting file `1` leaves `get_by_left 0 = {1}`: the deleted path still occurs
in the dependency graph. -/
theorem claim_c4_counterexample :
    ¬ (∀ (g : MultiBiMap ℕ ℕ) (lu : Option (MultiBiMap String ℕ)) (p : ℕ),
        ∀ k t, (delete_single_file g lu p).1.get_by_left k = some t → p ∉ t) := by
  intro h
  exact h (MultiBiMap.new.insert 0 1) none 1 0 {1} (by decide) (by decide)

/-- C4 (amended): after Delete Single File(p), `p` is gone from the antecedent
side of the dependency graph — it is no longer a left key and no
`get_by_right` set contains it — and `p` is gone entirely from the
alias-dependants graph (no longer a right key, and no `get_by_left` set
contains it).  `p` may however survive on the dependent (right) side of the
dependency graph when `p` itself had derives, as the counterexample forces. -/
theorem claim_c4_theorem (g : MultiBiMap ℕ ℕ) (lu : Option (MultiBiMap String ℕ))
    (p : ℕ) (hg : MultiBiMap.Inv g) (hlu : ∀ d ∈ lu, MultiBiMap.Inv d) :
    (delete_single_file g lu p).1.get_by_left p = none ∧
    (∀ r t, (delete_single_file g lu p).1.get_by_right r = some t → p ∉ t) ∧
    (∀ d ∈ (delete_single_file g lu p).2,
      d.get_by_right p = none ∧ ∀ a t, d.get_by_left a = some t → p ∉ t) := by
  refine ⟨MultiBiMap.get_by_left_remove_by_left_self, ?_, ?_⟩
  · intro r t ht hp
    rcases MultiBiMap.get_by_right_eq_some ht with ⟨hr, rfl⟩
    have hm : MultiBiMap.memRL (g.remove_by_left p) p r := ⟨hr, hp⟩
    rw [MultiBiMap.memRL_remove_by_left hg] at hm
    exact hm.1 rfl
  · intro d hd
    simp only [delete_single_file, Option.mem_def, Option.map_eq_some'] at hd
    rcases hd with ⟨dep, hdep, rfl⟩
    have hinv : MultiBiMap.Inv dep := hlu dep hdep
    refine ⟨MultiBiMap.get_by_right_remove_by_right_self, ?_⟩
    intro a t ht hp
    rcases MultiBiMap.get_by_left_eq_some ht with ⟨ha, rfl⟩
    have hm : MultiBiMap.memLR (dep.remove_by_right p) a p := ⟨ha, hp⟩
    rw [MultiBiMap.memLR_remove_by_right hinv] at hm
    exact hm.1 rfl

/-- Witness for C4: the amended theorem applied to the graph with the single
edge `(0, 1)` and a bound but empty alias-dependants map, deleting file `1`. -/
theorem claim_c4_witness :
    (delete_single_file (MultiBiMap.new.insert 0 1) (some MultiBiMap.new) 1).1.get_by_left 1
      = none := by
  have h := claim_c4_theorem (MultiBiMap.new.insert 0 1) (some MultiBiMap.new) 1
    (MultiBiMap.inv_insert MultiBiMap.inv_new 0 1)
    (by intro d hd; simp only [Option.mem_def, Option.some_inj] at hd; subst hd
        exact MultiBiMap.inv_new)
  exact h.1

/-! ## Claim C8 — one-hop cycle guard -/

/-- A source layout with a mutual one-hop cycle: `a` derives `b` and `b`
derives `a`. -/
def two_cycle_derives (a b : ℕ) : ℕ → List ℕ :=
  fun x => if x = a then [b] else if x = b then [a] else []

/-- `parse_macros_from_derives` (src/rsml_to_model_json.rs), restricted to its
effects on `already_parsed_derives` and the dependency graph: for each derive
of the current file (`derivesOf derive_path`; an unreadable file behaves like
one with no derives), skip it when it is already in the set, otherwise recurse
and only afterwards insert it into the set; finally register the edge
`insert(derive_path, path)`.  `fuel` bounds the recursion depth, which the
Rust function does not bound: `none` means the depth bound was exceeded, so a
`none` result at every fuel is non-termination of the source recursion. -/
def parse_macros_from_derives (derivesOf : ℕ → List ℕ) :
    ℕ → ℕ → ℕ → Finset ℕ → MultiBiMap ℕ ℕ →
      Option (Finset ℕ × MultiBiMap ℕ ℕ)
  | 0, _, _, _, _ => none
  | fuel + 1, derive_path, path, already_parsed_derives, deps =>
    match (derivesOf derive_path).foldl
        (fun acc d =>
          match acc with
          | none => none
          | some (already, deps) =>
            if d ∈ already then some (already, deps)
            else
              match parse_macros_from_derives derivesOf fuel d path already deps with
              | none => none
              | some (already2, deps2) => some (Insert.insert d already2, deps2))
        (some (already_parsed_derives, deps)) with
    | none => none
    | some (already2, deps2) => some (already2, deps2.insert derive_path path)

/-- The dependency-graph effect of `rsml_to_model_json(path)`: the top-level
derive loop threads a single `already_parsed_derives` set (initially empty)
through `parse_macros_from_derives` for every derive of `path`, with no
membership check and no insertion of its own. -/
def rsml_to_model_json_deps (derivesOf : ℕ → List ℕ) (fuel : ℕ) (path : ℕ)
    (deps : MultiBiMap ℕ ℕ) : Option (MultiBiMap ℕ ℕ) :=
  match (derivesOf path).foldl
      (fun acc d =>
        match acc with
        | none => none
        | some (already, deps) =>
          match parse_macros_from_derives derivesOf fuel d path already deps with
          | none => none
          | some (already2, deps2) => some (already2, deps2))
      (some ((∅ : Finset ℕ), deps)) with
  | none => none
  | some (_, deps2) => some deps2

theorem parse_two_cycle_diverges (a b : ℕ) (hab : a ≠ b) :
    ∀ (fuel : ℕ) (already : Finset ℕ) (deps : MultiBiMap ℕ ℕ),
      a ∉ already → b ∉ already →
      parse_macros_from_derives (two_cycle_derives a b) fuel a a already deps = none ∧
      parse_macros_from_derives (two_cycle_derives a b) fuel b a already deps = none := by
  have hba : b ≠ a := Ne.symm hab
  intro fuel
  induction fuel with
  | zero =>
    intro already deps _ _
    exact ⟨rfl, rfl⟩
  | succ fuel ih =>
    intro already deps ha hb
    constructor
    · have hrec := (ih already deps ha hb).2
      simp [parse_macros_from_derives, two_cycle_derives, hb, hrec]
    · have hrec := (ih already deps ha hb).1
      simp [parse_macros_from_derives, two_cycle_derives, hba, ha, hrec]

/-- C8, as stated, fails on the code: with `a` and `b` each deriving the
other, handling an edit event for `a` does not terminate.  Before the
referent cycle guard in `create_file` can act, `rsml_to_model_json` runs
`parse_macros_from_derives`, which inserts a derive into
`already_parsed_derives` only after the recursive call returns; on the
mutual cycle the membership check therefore never fires on the way down and
the traversal recurses between the two files unboundedly.  Formally: for
every recursion-depth bound `fuel` and every prior dependency-graph state,
the modelled traversal for compiling `a` exceeds the bound (`none`), so no
finite depth completes it. -/
theorem claim_c8_theorem (a b : ℕ) (hab : a ≠ b) (fuel : ℕ)
    (deps : MultiBiMap ℕ ℕ) :
    rsml_to_model_json_deps (two_cycle_derives a b) fuel a deps = none := by
  have h := (parse_two_cycle_diverges a b hab fuel ∅ deps
    (Finset.not_mem_empty a) (Finset.not_mem_empty b)).2
  simp [rsml_to_model_json_deps, two_cycle_derives, h]

/-- Witness for C8: the divergence theorem applied to files `0` and `1` at
recursion depth `5`. -/
theorem claim_c8_witness :
    rsml_to_model_json_deps (two_cycle_derives 0 1) 5 0 MultiBiMap.new = none :=
  claim_c8_theorem 0 1 (by decide) 5 MultiBiMap.new

/-! ## Claim C5 — Prune Subtree (`WatcherContext::prune_dependencies`)

Here canonical paths keep their component structure (`List String`), since
`Path::starts_with` is component-wise prefix.  `BTreeMap::keys()` iterates in
ascending key order, modelled by `Finset.sort`. -/

namespace MultiBiMap

theorem leftKeys_remove_by_left {L R : Type} [DecidableEq L] [DecidableEq R]
    (s : MultiBiMap L R) (l : L) :
    (s.remove_by_left l).leftKeys = s.leftKeys.erase l := by
  unfold remove_by_left
  by_cases hl : l ∈ s.leftKeys <;> simp [hl]

theorem rightKeys_remove_by_right {L R : Type} [DecidableEq L] [DecidableEq R]
    (s : MultiBiMap L R) (r : R) :
    (s.remove_by_right r).rightKeys = s.rightKeys.erase r := by
  unfold remove_by_right
  by_cases hr : r ∈ s.rightKeys <;> simp [hr]

end MultiBiMap

/-- `WatcherContext::prune_dependencies`: collect the `left_to_right` keys of
the dependency graph that start with `deleted_path` (in ascending key order)
and `remove_by_left` each; when a configuration is bound, collect the
`right_to_left` keys of the alias-dependants graph that start with
`deleted_path` and `remove_by_right` each. -/
def prune_dependencies (g : MultiBiMap (List String) (List String))
    (luaurc : Option (MultiBiMap String (List String)))
    (deleted_path : List String) :
    MultiBiMap (List String) (List String) × Option (MultiBiMap String (List String)) :=
  let keys_to_prune_from_dependencies :=
    (g.leftKeys.filter fun key => deleted_path.isPrefixOf key).sort (· ≤ ·)
  let g := keys_to_prune_from_dependencies.foldl
    (fun g key => g.remove_by_left key) g
  let luaurc := luaurc.map fun dependants =>
    let keys_to_prune_from_luaurc_dependants :=
      (dependants.rightKeys.filter fun key => deleted_path.isPrefixOf key).sort (· ≤ ·)
    keys_to_prune_from_luaurc_dependants.foldl
      (fun d key => d.remove_by_right key) dependants
  (g, luaurc)

theorem mem_foldl_erase {α : Type} [DecidableEq α] (ks : List α) (A : Finset α)
    (x : α) : x ∈ ks.foldl (fun s k => s.erase k) A ↔ x ∈ A ∧ x ∉ ks := by
  induction ks generalizing A with
  | nil => simp
  | cons k ks ih =>
    rw [List.foldl_cons, ih, Finset.mem_erase]
    simp only [List.mem_cons]
    tauto

theorem leftKeys_foldl_remove_by_left {L R : Type} [DecidableEq L] [DecidableEq R]
    (ks : List L) (g : MultiBiMap L R) :
    (ks.foldl (fun g k => g.remove_by_left k) g).leftKeys
      = ks.foldl (fun s k => s.erase k) g.leftKeys := by
  induction ks generalizing g with
  | nil => rfl
  | cons k ks ih =>
    rw [List.foldl_cons, List.foldl_cons, ih, MultiBiMap.leftKeys_remove_by_left]

theorem rightKeys_foldl_remove_by_right {L R : Type} [DecidableEq L] [DecidableEq R]
    (ks : List R) (g : MultiBiMap L R) :
    (ks.foldl (fun g k => g.remove_by_right k) g).rightKeys
      = ks.foldl (fun s k => s.erase k) g.rightKeys := by
  induction ks generalizing g with
  | nil => rfl
  | cons k ks ih =>
    rw [List.foldl_cons, List.foldl_cons, ih, MultiBiMap.rightKeys_remove_by_right]

/-- C5, as stated, is false: `prune_dependencies` only collects keys from the
dependency graph's `left_to_right` side, so a right-side (dependent) key under
the deleted path survives whenever it has an antecedent outside the subtree.
Concretely, with the single edge `(["a"], ["d", "x"])` and `deleted_path =
["d"]`, no left key matches, nothing is removed, and the right key
`["d", "x"]` — prefixed by the deleted path — is still present. -/
theorem claim_c5_counterexample :
    ¬ (∀ (g : MultiBiMap (List String) (List String))
        (lu : Option (MultiBiMap String (List String))) (d : List String),
        (∀ k ∈ (prune_dependencies g lu d).1.leftKeys, ¬ d.isPrefixOf k) ∧
        (∀ k ∈ (prune_dependencies g lu d).1.rightKeys, ¬ d.isPrefixOf k)) := by
  intro hall
  have hg : prune_dependencies (MultiBiMap.new.insert (["a"] : List String)
      (["d", "x"] : List String)) none ["d"]
      = (MultiBiMap.new.insert ["a"] ["d", "x"], none) := by
    unfold prune_dependencies
    have hfil : ((MultiBiMap.new.insert (["a"] : List String)
        (["d", "x"] : List String)).leftKeys.filter
          fun key => (["d"] : List String).isPrefixOf key) = ∅ := by decide
    rw [hfil, Finset.sort_empty]
    rfl
  have h := (hall (MultiBiMap.new.insert ["a"] ["d", "x"]) none ["d"]).2
  rw [hg] at h
  exact h ["d", "x"] (by decide) (by decide)

/-- C5 (amended): after Prune Subtree(deleted_path), no left
(antecedent-side) key of the dependency graph is prefixed by `deleted_path`,
and, when a configuration is bound, no right (path-valued) key of the
alias-dependants graph is prefixed by `deleted_path`.  Right-side dependency
keys under the deleted path may survive (the counterexample forces dropping
that half), since only `left_to_right` keys are collected for pruning. -/
theorem claim_c5_theorem (g : MultiBiMap (List String) (List String))
    (lu : Option (MultiBiMap String (List String))) (d : List String) :
    (∀ k ∈ (prune_dependencies g lu d).1.leftKeys, ¬ d.isPrefixOf k) ∧
    (∀ dep ∈ (prune_dependencies g lu d).2,
      ∀ k ∈ dep.rightKeys, ¬ d.isPrefixOf k) := by
  constructor
  · intro k hk hpre
    rw [show (prune_dependencies g lu d).1 =
        ((g.leftKeys.filter fun key => d.isPrefixOf key).sort (· ≤ ·)).foldl
          (fun g key => g.remove_by_left key) g from rfl] at hk
    rw [leftKeys_foldl_remove_by_left, mem_foldl_erase] at hk
    exact hk.2 ((Finset.mem_sort (α := List String) (· ≤ ·)).mpr
      (Finset.mem_filter.mpr ⟨hk.1, hpre⟩))
  · intro dep hdep k hk hpre
    have : (prune_dependencies g lu d).2 = lu.map fun dependants =>
        ((dependants.rightKeys.filter fun key => d.isPrefixOf key).sort (· ≤ ·)).foldl
          (fun dd key => dd.remove_by_right key) dependants := rfl
    rw [this] at hdep
    simp only [Option.mem_def, Option.map_eq_some'] at hdep
    rcases hdep with ⟨dep0, _, rfl⟩
    rw [rightKeys_foldl_remove_by_right, mem_foldl_erase] at hk
    exact hk.2 ((Finset.mem_sort (α := List String) (· ≤ ·)).mpr
      (Finset.mem_filter.mpr ⟨hk.1, hpre⟩))

/-! ## Claim C6 — Aliases::diff (src/luaurc/mod.rs)

A `BTreeMap<String, String>` is represented by its iteration sequence: a list
of key/value pairs whose keys are strictly ascending.  The embedding is
generic over a linearly ordered key type (Rust `Ord`) and a value type with
decidable equality (Rust `PartialEq`). -/

/-- `Aliases::diff`: the two-pointer sorted merge.  The four match arms mirror
the Rust `match (na, nb)`: both exhausted; only `a` left; only `b` left; and
the three-way key comparison with the equal-value skip. -/
def diff {α β : Type} [LinearOrder α] [DecidableEq β] :
    List (α × β) → List (α × β) → List α
  | [], [] => []
  | (ka, _) :: ta, [] => ka :: diff ta []
  | [], (kb, _) :: tb => kb :: diff [] tb
  | (ka, va) :: ta, (kb, vb) :: tb =>
    if ka = kb then
      (if va = vb then diff ta tb else ka :: diff ta tb)
    else if ka < kb then
      ka :: diff ta ((kb, vb) :: tb)
    else
      kb :: diff ((ka, va) :: ta) tb
termination_by a b => a.length + b.length

/-- Association-list lookup, the specification-side reading of a
`BTreeMap` iteration sequence. -/
def alookup {α β : Type} [DecidableEq α] : List (α × β) → α → Option β
  | [], _ => none
  | (k, v) :: t, x => if x = k then some v else alookup t x

theorem alookup_eq_none_of_forall_lt {α β : Type} [LinearOrder α]
    {A : List (α × β)} {x : α} (h : ∀ p ∈ A, x < p.1) : alookup A x = none := by
  induction A with
  | nil => rfl
  | cons p t ih =>
    rw [show alookup (p :: t) x = if x = p.1 then some p.2 else alookup t x from rfl]
    rw [if_neg (ne_of_lt (h p (List.mem_cons_self p t)))]
    exact ih fun q hq => h q (List.mem_cons_of_mem p hq)

theorem diff_eq_nil_nil {α β : Type} [LinearOrder α] [DecidableEq β] :
    diff ([] : List (α × β)) [] = [] := by
  simp [diff]

theorem diff_eq_cons_nil {α β : Type} [LinearOrder α] [DecidableEq β]
    (ka : α) (va : β) (ta : List (α × β)) :
    diff ((ka, va) :: ta) [] = ka :: diff ta [] := by
  simp [diff]

theorem diff_eq_nil_cons {α β : Type} [LinearOrder α] [DecidableEq β]
    (kb : α) (vb : β) (tb : List (α × β)) :
    diff [] ((kb, vb) :: tb) = kb :: diff [] tb := by
  simp [diff]

theorem diff_eq_cons_cons_eq_eq {α β : Type} [LinearOrder α] [DecidableEq β]
    (kb : α) (vb : β) (ta tb : List (α × β)) :
    diff ((kb, vb) :: ta) ((kb, vb) :: tb) = diff ta tb := by
  simp [diff]

theorem diff_eq_cons_cons_eq_ne {α β : Type} [LinearOrder α] [DecidableEq β]
    (kb : α) (va vb : β) (ta tb : List (α × β)) (hv : va ≠ vb) :
    diff ((kb, va) :: ta) ((kb, vb) :: tb) = kb :: diff ta tb := by
  simp [diff, hv]

theorem diff_eq_cons_cons_lt {α β : Type} [LinearOrder α] [DecidableEq β]
    (ka kb : α) (va vb : β) (ta tb : List (α × β)) (hk : ka ≠ kb) (hlt : ka < kb) :
    diff ((ka, va) :: ta) ((kb, vb) :: tb) = ka :: diff ta ((kb, vb) :: tb) := by
  simp [diff, hk, hlt]

theorem diff_eq_cons_cons_gt {α β : Type} [LinearOrder α] [DecidableEq β]
    (ka kb : α) (va vb : β) (ta tb : List (α × β)) (hk : ka ≠ kb) (hlt : ¬ ka < kb) :
    diff ((ka, va) :: ta) ((kb, vb) :: tb) = kb :: diff ((ka, va) :: ta) tb := by
  simp [diff, hk, hlt]

theorem diff_lt_of_lt {α β : Type} [LinearOrder α] [DecidableEq β] :
    ∀ (A B : List (α × β)) (x : α),
      (∀ p ∈ A, x < p.1) → (∀ p ∈ B, x < p.1) → ∀ k ∈ diff A B, x < k := by
  intro A B
  induction A, B using diff.induct with
  | case1 =>
    intro x _ _ k hk
    rw [diff_eq_nil_nil] at hk
    exact absurd hk (List.not_mem_nil k)
  | case2 ka va ta ih =>
    intro x hA _ k hk
    rw [diff_eq_cons_nil] at hk
    rcases List.mem_cons.mp hk with rfl | hk
    · exact hA (k, va) (List.mem_cons_self _ _)
    · exact ih x (fun p hp => hA p (List.mem_cons_of_mem _ hp)) (by simp) k hk
  | case3 kb vb tb ih =>
    intro x _ hB k hk
    rw [diff_eq_nil_cons] at hk
    rcases List.mem_cons.mp hk with rfl | hk
    · exact hB (k, vb) (List.mem_cons_self _ _)
    · exact ih x (by simp) (fun p hp => hB p (List.mem_cons_of_mem _ hp)) k hk
  | case4 ta kb vb tb ih =>
    intro x hA hB k hk
    rw [diff_eq_cons_cons_eq_eq] at hk
    exact ih x (fun p hp => hA p (List.mem_cons_of_mem _ hp))
      (fun p hp => hB p (List.mem_cons_of_mem _ hp)) k hk
  | case5 va ta kb vb tb hv ih =>
    intro x hA hB k hk
    rw [diff_eq_cons_cons_eq_ne kb va vb ta tb hv] at hk
    rcases List.mem_cons.mp hk with rfl | hk
    · exact hA (k, va) (List.mem_cons_self _ _)
    · exact ih x (fun p hp => hA p (List.mem_cons_of_mem _ hp))
        (fun p hp => hB p (List.mem_cons_of_mem _ hp)) k hk
  | case6 ka va ta kb vb tb hk0 hlt ih =>
    intro x hA hB k hk
    rw [diff_eq_cons_cons_lt ka kb va vb ta tb hk0 hlt] at hk
    rcases List.mem_cons.mp hk with rfl | hk
    · exact hA (k, va) (List.mem_cons_self _ _)
    · exact ih x (fun p hp => hA p (List.mem_cons_of_mem _ hp)) hB k hk
  | case7 ka va ta kb vb tb hk0 hnlt ih =>
    intro x hA hB k hk
    rw [diff_eq_cons_cons_gt ka kb va vb ta tb hk0 hnlt] at hk
    rcases List.mem_cons.mp hk with rfl | hk
    · exact hB (k, vb) (List.mem_cons_self _ _)
    · exact ih x hA (fun p hp => hB p (List.mem_cons_of_mem _ hp)) k hk

theorem sorted_keys_cons {α β : Type} [LinearOrder α] {p : α × β}
    {t : List (α × β)} (h : ((p :: t).map Prod.fst).Sorted (· < ·)) :
    (∀ q ∈ t, p.1 < q.1) ∧ (t.map Prod.fst).Sorted (· < ·) := by
  rw [List.map_cons, List.sorted_cons] at h
  exact ⟨fun q hq => h.1 q.1 (List.mem_map_of_mem Prod.fst hq), h.2⟩

theorem diff_sorted {α β : Type} [LinearOrder α] [DecidableEq β] :
    ∀ (A B : List (α × β)), (A.map Prod.fst).Sorted (· < ·) →
      (B.map Prod.fst).Sorted (· < ·) → (diff A B).Sorted (· < ·) := by
  intro A B
  induction A, B using diff.induct with
  | case1 =>
    intro _ _
    rw [diff_eq_nil_nil]
    exact List.sorted_nil
  | case2 ka va ta ih =>
    intro hA hB
    rw [diff_eq_cons_nil]
    rcases sorted_keys_cons hA with ⟨hh, ht⟩
    rw [List.sorted_cons]
    exact ⟨fun k hk => diff_lt_of_lt ta [] ka hh (by simp) k hk, ih ht hB⟩
  | case3 kb vb tb ih =>
    intro hA hB
    rw [diff_eq_nil_cons]
    rcases sorted_keys_cons hB with ⟨hh, ht⟩
    rw [List.sorted_cons]
    exact ⟨fun k hk => diff_lt_of_lt [] tb kb (by simp) hh k hk, ih hA ht⟩
  | case4 ta kb vb tb ih =>
    intro hA hB
    rw [diff_eq_cons_cons_eq_eq]
    exact ih (sorted_keys_cons hA).2 (sorted_keys_cons hB).2
  | case5 va ta kb vb tb hv ih =>
    intro hA hB
    rw [diff_eq_cons_cons_eq_ne kb va vb ta tb hv, List.sorted_cons]
    rcases sorted_keys_cons hA with ⟨hhA, htA⟩
    rcases sorted_keys_cons hB with ⟨hhB, htB⟩
    exact ⟨fun k hk => diff_lt_of_lt ta tb kb hhA hhB k hk, ih htA htB⟩
  | case6 ka va ta kb vb tb hk0 hlt ih =>
    intro hA hB
    rw [diff_eq_cons_cons_lt ka kb va vb ta tb hk0 hlt, List.sorted_cons]
    rcases sorted_keys_cons hA with ⟨hhA, htA⟩
    have hhB : ∀ q ∈ (kb, vb) :: tb, ka < q.1 := by
      intro q hq
      rcases List.mem_cons.mp hq with rfl | hq
      · exact hlt
      · exact lt_trans hlt ((sorted_keys_cons hB).1 q hq)
    exact ⟨fun k hk => diff_lt_of_lt ta ((kb, vb) :: tb) ka hhA hhB k hk, ih htA hB⟩
  | case7 ka va ta kb vb tb hk0 hnlt ih =>
    intro hA hB
    have hgt : kb < ka := lt_of_le_of_ne (le_of_not_lt hnlt) (Ne.symm hk0)
    rw [diff_eq_cons_cons_gt ka kb va vb ta tb hk0 hnlt, List.sorted_cons]
    rcases sorted_keys_cons hB with ⟨hhB, htB⟩
    have hhA : ∀ q ∈ (ka, va) :: ta, kb < q.1 := by
      intro q hq
      rcases List.mem_cons.mp hq with rfl | hq
      · exact hgt
      · exact lt_trans hgt ((sorted_keys_cons hA).1 q hq)
    exact ⟨fun k hk => diff_lt_of_lt ((ka, va) :: ta) tb kb hhA hhB k hk, ih hA htB⟩

theorem mem_diff_iff {α β : Type} [LinearOrder α] [DecidableEq β] :
    ∀ (A B : List (α × β)), (A.map Prod.fst).Sorted (· < ·) →
      (B.map Prod.fst).Sorted (· < ·) →
      ∀ k, k ∈ diff A B ↔ alookup A k ≠ alookup B k := by
  intro A B
  induction A, B using diff.induct with
  | case1 =>
    intro _ _ k
    rw [diff_eq_nil_nil]
    simp [alookup]
  | case2 ka va ta ih =>
    intro hA hB k
    rw [diff_eq_cons_nil]
    rcases sorted_keys_cons hA with ⟨_, ht⟩
    by_cases hk : k = ka
    · subst hk
      refine iff_of_true (List.mem_cons_self _ _) ?_
      simp [alookup]
    · have e1 : alookup ((ka, va) :: ta) k = alookup ta k := by simp [alookup, hk]
      rw [List.mem_cons, e1]
      simp only [hk, false_or]
      exact ih ht hB k
  | case3 kb vb tb ih =>
    intro hA hB k
    rw [diff_eq_nil_cons]
    rcases sorted_keys_cons hB with ⟨_, ht⟩
    by_cases hk : k = kb
    · subst hk
      refine iff_of_true (List.mem_cons_self _ _) ?_
      simp [alookup]
    · have e2 : alookup ((kb, vb) :: tb) k = alookup tb k := by simp [alookup, hk]
      rw [List.mem_cons, e2]
      simp only [hk, false_or]
      exact ih hA ht k
  | case4 ta kb vb tb ih =>
    intro hA hB k
    rw [diff_eq_cons_cons_eq_eq]
    rcases sorted_keys_cons hA with ⟨hhA, htA⟩
    rcases sorted_keys_cons hB with ⟨hhB, htB⟩
    by_cases hk : k = kb
    · subst hk
      refine iff_of_false ?_ ?_
      · intro hmem
        have hne := (ih htA htB k).mp hmem
        rw [alookup_eq_none_of_forall_lt hhA, alookup_eq_none_of_forall_lt hhB] at hne
        exact hne rfl
      · simp [alookup]
    · have e1 : alookup ((kb, vb) :: ta) k = alookup ta k := by simp [alookup, hk]
      have e2 : alookup ((kb, vb) :: tb) k = alookup tb k := by simp [alookup, hk]
      rw [e1, e2]
      exact ih htA htB k
  | case5 va ta kb vb tb hv ih =>
    intro hA hB k
    rw [diff_eq_cons_cons_eq_ne kb va vb ta tb hv]
    rcases sorted_keys_cons hA with ⟨_, htA⟩
    rcases sorted_keys_cons hB with ⟨_, htB⟩
    by_cases hk : k = kb
    · subst hk
      refine iff_of_true (List.mem_cons_self _ _) ?_
      simp [alookup, hv]
    · have e1 : alookup ((kb, va) :: ta) k = alookup ta k := by simp [alookup, hk]
      have e2 : alookup ((kb, vb) :: tb) k = alookup tb k := by simp [alookup, hk]
      rw [List.mem_cons, e1, e2]
      simp only [hk, false_or]
      exact ih htA htB k
  | case6 ka va ta kb vb tb hk0 hlt ih =>
    intro hA hB k
    rw [diff_eq_cons_cons_lt ka kb va vb ta tb hk0 hlt]
    rcases sorted_keys_cons hA with ⟨_, htA⟩
    by_cases hk : k = ka
    · subst hk
      refine iff_of_true (List.mem_cons_self _ _) ?_
      have hBnone : alookup ((kb, vb) :: tb) k = none := by
        apply alookup_eq_none_of_forall_lt
        intro q hq
        rcases List.mem_cons.mp hq with rfl | hq
        · exact hlt
        · exact lt_trans hlt ((sorted_keys_cons hB).1 q hq)
      rw [hBnone]
      simp [alookup]
    · have e1 : alookup ((ka, va) :: ta) k = alookup ta k := by simp [alookup, hk]
      rw [List.mem_cons, e1]
      simp only [hk, false_or]
      exact ih htA hB k
  | case7 ka va ta kb vb tb hk0 hnlt ih =>
    intro hA hB k
    have hgt : kb < ka := lt_of_le_of_ne (le_of_not_lt hnlt) (Ne.symm hk0)
    rw [diff_eq_cons_cons_gt ka kb va vb ta tb hk0 hnlt]
    rcases sorted_keys_cons hB with ⟨_, htB⟩
    by_cases hk : k = kb
    · subst hk
      refine iff_of_true (List.mem_cons_self _ _) ?_
      have hAnone : alookup ((ka, va) :: ta) k = none := by
        apply alookup_eq_none_of_forall_lt
        intro q hq
        rcases List.mem_cons.mp hq with rfl | hq
        · exact hgt
        · exact lt_trans hgt ((sorted_keys_cons hA).1 q hq)
      rw [hAnone]
      simp [alookup]
    · have e2 : alookup ((kb, vb) :: tb) k = alookup tb k := by simp [alookup, hk]
      rw [List.mem_cons, e2]
      simp only [hk, false_or]
      exact ih hA htB k

theorem diff_self {α β : Type} [LinearOrder α] [DecidableEq β]
    (A : List (α × β)) : diff A A = [] := by
  induction A with
  | nil => exact diff_eq_nil_nil
  | cons p t ih =>
    rcases p with ⟨k, v⟩
    rw [diff_eq_cons_cons_eq_eq, ih]

/-- C6: for alias tables given as sorted key/value sequences (the iteration
order of `BTreeMap`), `diff` yields a strictly ascending (hence
duplicate-free) sequence containing exactly the keys whose lookups in the two
tables differ — keys present in only one table, or present in both with
different values — and `diff A A` is empty. -/
theorem claim_c6_theorem {α β : Type} [LinearOrder α] [DecidableEq β]
    (A B : List (α × β))
    (hA : (A.map Prod.fst).Sorted (· < ·))
    (hB : (B.map Prod.fst).Sorted (· < ·)) :
    (diff A B).Sorted (· < ·) ∧ (diff A B).Nodup ∧
    (∀ k, k ∈ diff A B ↔ alookup A k ≠ alookup B k) ∧
    diff A A = [] := by
  have hs := diff_sorted A B hA hB
  exact ⟨hs, hs.nodup, mem_diff_iff A B hA hB, diff_self A⟩

/-- Witness for C6: the tables `[(0, 5), (1, 6)]` and `[(1, 7)]` — key `0`
removed, key `1` changed — where the theorem pins the membership of `0` and
the absence of the untouched key `2`. -/
theorem claim_c6_witness :
    0 ∈ diff [((0 : ℕ), (5 : ℕ)), (1, 6)] [(1, 7)] ∧
    (2 : ℕ) ∉ diff [((0 : ℕ), (5 : ℕ)), (1, 6)] [(1, 7)] := by
  have h := claim_c6_theorem [((0 : ℕ), (5 : ℕ)), (1, 6)] [(1, 7)]
    (by decide) (by decide)
  constructor
  · exact (h.2.2.1 0).mpr (by decide)
  · intro hm
    exact (by decide :
      ¬ (alookup [((0 : ℕ), (5 : ℕ)), (1, 6)] 2 ≠ alookup [((1 : ℕ), (7 : ℕ))] 2))
      ((h.2.2.1 2).mp hm)

/-! ## Claim C9 — Aliases::new (src/luaurc/mod.rs)

The JSON text parser is the external serde_json crate; a text-level parse
failure is modelled as the input `none`.  The in-repository code is the
`Deserialize` impl for `Aliases` (the `AliasesVisitor` map visitor) and
`Aliases::new` with its `unwrap_or_else(default)`. -/

/-- A parsed JSON value, the interface type handed to the deserializer. -/
inductive Json where
  | null
  | bool (b : Bool)
  | num (n : Int)
  | str (s : String)
  | arr (elems : List Json)
  | obj (fields : List (String × Json))

/-- Deserializing the `aliases` value as a `BTreeMap<String, String>`
(`access.next_value()`): the value must be a map whose values are all
strings; any other shape is a type error. -/
def deserialize_string_map : Json → Except String (List (String × String))
  | .obj fields => fields.mapM fun p =>
      match p.2 with
      | .str s => Except.ok (p.1, s)
      | _ => Except.error ("invalid type")
  | _ => Except.error ("invalid type: expected a map")

/-- The `while let Some(key) = access.next_key()` loop of `AliasesVisitor`:
a field named `aliases` (re)binds the accumulator through `next_value()`,
whose error propagates; any other field is consumed as `IgnoredAny`. -/
def visit_aliases_fields :
    List (String × Json) → Option (List (String × String)) →
    Except String (List (String × String))
  | [], acc =>
    match acc with
    | some m => Except.ok m
    | none => Except.error ("missing field aliases")
  | (key, value) :: rest, acc =>
    if key = "aliases" then
      match deserialize_string_map value with
      | Except.error e => Except.error e
      | Except.ok m => visit_aliases_fields rest (some m)
    else
      visit_aliases_fields rest acc

/-- The `Deserialize` impl for `Aliases`: `deserialize_map` with
`AliasesVisitor`; a non-map value is a type error. -/
def deserialize_aliases : Json → Except String (List (String × String))
  | .obj fields => visit_aliases_fields fields none
  | _ => Except.error ("expected a map with an aliases key")

/-- `Aliases::new`: `serde_json::from_str::<Aliases>(contents).unwrap_or_else(default)`.
`none` is a text-level parse failure; a successfully parsed value still fails
when the deserializer rejects it, and every failure yields the empty table. -/
def Aliases.new (input : Option Json) : List (String × String) :=
  match input with
  | none => []
  | some j =>
    match deserialize_aliases j with
    | Except.ok m => m
    | Except.error _ => []

/-- C9: for every input that fails to parse as a configuration file — either
malformed JSON text (`none`) or JSON whose shape the aliases deserializer
rejects (non-map input, missing `aliases` field, non-string alias values) —
`Aliases::new` returns the empty table; the function is total and never
aborts. -/
theorem claim_c9_theorem (input : Option Json)
    (hfail : input = none ∨
      ∃ j, input = some j ∧ ∃ e, deserialize_aliases j = Except.error e) :
    Aliases.new input = [] := by
  rcases hfail with rfl | ⟨j, rfl, e, he⟩
  · rfl
  · simp [Aliases.new, he]

/-- Witness for C9: the JSON object lacking the `aliases` key. -/
theorem claim_c9_witness : Aliases.new (some (Json.obj [])) = [] :=
  claim_c9_theorem (some (Json.obj []))
    (Or.inr ⟨Json.obj [], rfl, "missing field aliases", rfl⟩)

/-! ## Claim C7 — directory rescan cleanup (`recursive_scan_clean`,
`model_json_is_rsml`)

A file-system subtree is a tree of entries; a file carries the identity field
its content would yield when parsed as `ModelJsonId` (`none` when the file is
unreadable or not valid JSON with an `id`). -/

/-- A file-system entry as seen by the rescan walk. -/
inductive FsEntry where
  | dir (entries : List FsEntry)
  | file (name : String) (idField : Option String)

/-- Rust `str::ends_with`: suffix test on the character sequence. -/
def ends_with (s suffix : String) : Bool :=
  suffix.data.isSuffixOf s.data

/-- `model_json_is_rsml`: read and parse the candidate file — failures yield
`false` via `guarded_unwrap` — then test `model.id.ends_with(".rsml")`. -/
def model_json_is_rsml (idField : Option String) : Bool :=
  match idField with
  | none => false
  | some id => ends_with id (".rsml")

mutual

/-- `WatcherContext::recursive_scan_clean`: recurse into directories; delete a
file when its name ends with `.model.json` and `model_json_is_rsml` holds.
The returned list is the set of deleted artifact paths. -/
def recursive_scan_clean : FsEntry → List String
  | .dir entries => recursive_scan_clean_list entries
  | .file name idField =>
    if ends_with name (".model.json") && model_json_is_rsml idField then
      [name]
    else
      []

/-- The `for entry in dir` loop of `recursive_scan_clean`. -/
def recursive_scan_clean_list : List FsEntry → List String
  | [] => []
  | e :: rest => recursive_scan_clean e ++ recursive_scan_clean_list rest

end

mutual

/-- All files of a subtree, with their identity fields. -/
def files_in : FsEntry → List (String × Option String)
  | .dir entries => files_in_list entries
  | .file name idField => [(name, idField)]

/-- All files of a list of subtrees. -/
def files_in_list : List FsEntry → List (String × Option String)
  | [] => []
  | e :: rest => files_in e ++ files_in_list rest

end

/-- A tree holding a live source `a.rsml` and its generated artifact
`a.model.json`, whose identity field points at the (existing) source. -/
def demo_tree : FsEntry :=
  .dir [.file ("a.rsml") none, .file ("a.model.json") (some ("a.rsml"))]

mutual

theorem scan_clean_eq_aux (t : FsEntry) :
    recursive_scan_clean t = ((files_in t).filter fun p =>
      ends_with p.1 (".model.json") && model_json_is_rsml p.2).map Prod.fst := by
  cases t with
  | dir entries =>
    rw [show recursive_scan_clean (.dir entries)
        = recursive_scan_clean_list entries from rfl,
      show files_in (.dir entries) = files_in_list entries from rfl]
    exact scan_clean_list_eq_aux entries
  | file name idField =>
    rw [show recursive_scan_clean (.file name idField)
        = (if ends_with name (".model.json") && model_json_is_rsml idField then
            [name] else []) from rfl,
      show files_in (.file name idField) = [(name, idField)] from rfl]
    by_cases hc : (ends_with name (".model.json") && model_json_is_rsml idField) = true
    · rw [if_pos hc]
      simp [List.filter, hc]
    · rw [if_neg hc]
      simp only [Bool.not_eq_true] at hc
      simp [List.filter, hc]

theorem scan_clean_list_eq_aux (ts : List FsEntry) :
    recursive_scan_clean_list ts = ((files_in_list ts).filter fun p =>
      ends_with p.1 (".model.json") && model_json_is_rsml p.2).map Prod.fst := by
  cases ts with
  | nil => rfl
  | cons e rest =>
    rw [show recursive_scan_clean_list (e :: rest)
        = recursive_scan_clean e ++ recursive_scan_clean_list rest from rfl,
      show files_in_list (e :: rest) = files_in e ++ files_in_list rest from rfl,
      List.filter_append, List.map_append,
      scan_clean_eq_aux e, scan_clean_list_eq_aux rest]

end

/-- C7, as stated, is false: `recursive_scan_clean` never consults whether the
corresponding source file still exists — the only checks are the
`.model.json` name suffix and the identity field's `.rsml` extension.  In the
tree holding both the live source `a.rsml` and its artifact `a.model.json`
(identity `a.rsml`), the cleanup pass deletes the artifact even though the
source it references exists. -/
theorem claim_c7_counterexample :
    ¬ (∀ (t : FsEntry) (name : String) (idf : Option String),
        name ∈ recursive_scan_clean t → (name, idf) ∈ files_in t →
        model_json_is_rsml idf = true ∧
          ∀ id, idf = some id → id ∉ (files_in t).map Prod.fst) := by
  intro h
  have e1 : ends_with ("a.rsml") (".model.json") = false := by decide
  have e2 : ends_with ("a.model.json") (".model.json") = true := by decide
  have e3 : ends_with ("a.rsml") (".rsml") = true := by decide
  have hscan : recursive_scan_clean demo_tree = ["a.model.json"] := by
    simp [demo_tree, recursive_scan_clean, recursive_scan_clean_list,
      model_json_is_rsml, e1, e2, e3]
  have hfiles : files_in demo_tree
      = [(("a.rsml" : String), (none : Option String)),
         ("a.model.json", some ("a.rsml"))] := by
    simp [demo_tree, files_in, files_in_list]
  have hmem : ("a.model.json" : String) ∈ recursive_scan_clean demo_tree := by
    rw [hscan]
    exact List.mem_cons_self _ _
  have hf : (("a.model.json" : String), (some ("a.rsml") : Option String))
      ∈ files_in demo_tree := by
    rw [hfiles]
    simp
  have hres := (h demo_tree ("a.model.json") (some ("a.rsml")) hmem hf).2
    ("a.rsml") rfl
  apply hres
  rw [hfiles]
  simp

/-- C7 (amended): during a rescan's cleanup pass, the deleted files are
exactly the files whose name ends with `.model.json` and whose embedded
identity field marks them as sourced from the tracked language
(`model_json_is_rsml`); whether the corresponding source file still exists is
not consulted, so an artifact of a live source is deleted as well (the
separate create pass regenerates artifacts for existing sources). -/
theorem claim_c7_theorem (t : FsEntry) :
    recursive_scan_clean t = ((files_in t).filter fun p =>
      ends_with p.1 (".model.json") && model_json_is_rsml p.2).map Prod.fst :=
  scan_clean_eq_aux t

/-! ## Claim C10 — NormalizePath::normalize (src/normalize_path.rs)

A path is its parsed component sequence (`Path::components()`): an optional
root followed by `CurDir` / `ParentDir` / `Normal` components.  The Windows
`Component::Prefix` head is outside this model.  `PathBuf` pushes are
component-level: pushing the separator (the `RootDir` arm) replaces the whole
buffer with the root, `pop` drops the last component and reports whether the
buffer had one. -/

/-- A parsed path component (`std::path::Component` without `Prefix`). -/
inductive PathComponent where
  | rootDir
  | curDir
  | parentDir
  | normal (s : String)
deriving DecidableEq

/-- The `PathBuf` being accumulated by `normalize` (`ret`): a root flag plus
the component list. -/
structure NPath where
  root : Bool
  comps : List PathComponent
deriving DecidableEq

/-- One iteration of the `for component in components` loop of
`NormalizePath::normalize`: `RootDir` pushes the separator (replacing the
buffer), `CurDir` is skipped, `ParentDir` either extends a trailing `..` run,
pops, or — when nothing was popped and there is no root — pushes `..`;
`Normal` is appended. -/
def pushComponent (ret : NPath) : PathComponent → NPath
  | .rootDir => { root := true, comps := [] }
  | .curDir => ret
  | .parentDir =>
    if ret.comps.getLast? = some PathComponent.parentDir then
      { ret with comps := ret.comps ++ [PathComponent.parentDir] }
    else if ret.comps ≠ [] then
      { ret with comps := ret.comps.dropLast }
    else if ret.root then
      ret
    else
      { ret with comps := [PathComponent.parentDir] }
  | .normal s => { ret with comps := ret.comps ++ [PathComponent.normal s] }

/-- `self.as_ref().components()` of the path represented by an `NPath`. -/
def NPath.toComponents (p : NPath) : List PathComponent :=
  (if p.root then [PathComponent.rootDir] else []) ++ p.comps

/-- The body of `NormalizePath::normalize`: fold the loop over the component
sequence, starting from `PathBuf::new()`. -/
def normalize_components (cs : List PathComponent) : NPath :=
  cs.foldl pushComponent { root := false, comps := [] }

/-- `NormalizePath::normalize` as a path-to-path function: parse, fold,
return the built `PathBuf`. -/
def NPath.normalize (p : NPath) : NPath :=
  normalize_components p.toComponents

/-- Shape of every value `normalize` can produce: a run of `..` components
followed by normal components, with no leading `..` run when the path has a
root. -/
def OutShape (r : NPath) : Prop :=
  ∃ k ns, r.comps = List.replicate k PathComponent.parentDir ++ ns ∧
    (∀ c ∈ ns, ∃ s, c = PathComponent.normal s) ∧ (r.root = true → k = 0)

theorem outShape_push (r : NPath) (h : OutShape r) (c : PathComponent) :
    OutShape (pushComponent r c) := by
  obtain ⟨k, ns, hc, hns, hrk⟩ := h
  cases c with
  | rootDir => exact ⟨0, [], rfl, by simp, fun _ => rfl⟩
  | curDir => exact ⟨k, ns, hc, hns, hrk⟩
  | normal s =>
    refine ⟨k, ns ++ [PathComponent.normal s], ?_, ?_, hrk⟩
    · show r.comps ++ [PathComponent.normal s] = _
      rw [hc, List.append_assoc]
    · intro c hcmem
      rcases List.mem_append.mp hcmem with hcm | hcm
      · exact hns c hcm
      · simp only [List.mem_singleton] at hcm
        exact ⟨s, hcm⟩
  | parentDir =>
    by_cases h1 : r.comps.getLast? = some PathComponent.parentDir
    · have hns_nil : ns = [] := by
        by_contra hne
        rw [hc, List.getLast?_append_of_ne_nil _ hne] at h1
        obtain ⟨s, hs⟩ := hns PathComponent.parentDir (List.mem_of_mem_getLast? h1)
        exact PathComponent.noConfusion hs
      subst hns_nil
      have hpush : pushComponent r PathComponent.parentDir
          = { r with comps := r.comps ++ [PathComponent.parentDir] } := by
        simp only [pushComponent]
        rw [if_pos h1]
      rw [hpush]
      refine ⟨k + 1, [], ?_, by simp, ?_⟩
      · show r.comps ++ [PathComponent.parentDir]
            = List.replicate (k + 1) PathComponent.parentDir ++ []
        rw [hc, List.append_nil, List.append_nil, ← List.replicate_succ']
      · intro hr
        exfalso
        have hk0 := hrk hr
        subst hk0
        rw [hc] at h1
        simp at h1
    · by_cases h2 : r.comps = []
      · have hpush : pushComponent r PathComponent.parentDir
            = (if r.root then r else { r with comps := [PathComponent.parentDir] }) := by
          simp only [pushComponent]
          rw [if_neg h1, if_neg (by simp [h2])]
        by_cases h3 : r.root = true
        · rw [hpush, if_pos h3]
          exact ⟨k, ns, hc, hns, hrk⟩
        · rw [hpush, if_neg h3]
          refine ⟨1, [], by simp [List.replicate], by simp, fun hr => absurd hr h3⟩
      · have hpush : pushComponent r PathComponent.parentDir
            = { r with comps := r.comps.dropLast } := by
          simp only [pushComponent]
          rw [if_neg h1, if_pos h2]
        rw [hpush]
        have hns_ne : ns ≠ [] := by
          rintro rfl
          rw [List.append_nil] at hc
          cases k with
          | zero => exact h2 (by rw [hc]; rfl)
          | succ i =>
            apply h1
            rw [hc, List.replicate_succ', List.getLast?_concat]
        refine ⟨k, ns.dropLast, ?_, ?_, hrk⟩
        · show r.comps.dropLast = _
          rw [hc, List.dropLast_append_of_ne_nil _ hns_ne]
        · intro c hcm
          exact hns c (List.mem_of_mem_dropLast hcm)

theorem outShape_foldl (cs : List PathComponent) (r : NPath) (h : OutShape r) :
    OutShape (cs.foldl pushComponent r) := by
  induction cs generalizing r with
  | nil => exact h
  | cons c cs ih => exact ih _ (outShape_push r h c)

theorem foldl_push_normals (ns : List PathComponent)
    (h : ∀ c ∈ ns, ∃ s, c = PathComponent.normal s) (r : NPath) :
    ns.foldl pushComponent r = { r with comps := r.comps ++ ns } := by
  induction ns generalizing r with
  | nil => simp
  | cons c rest ih =>
    obtain ⟨s, rfl⟩ := h c (List.mem_cons_self c rest)
    rw [List.foldl_cons]
    rw [show pushComponent r (PathComponent.normal s)
        = { r with comps := r.comps ++ [PathComponent.normal s] } from rfl]
    rw [ih fun c hcm => h c (List.mem_cons_of_mem _ hcm)]
    simp [List.append_assoc]

theorem push_parent_replicate (j : ℕ) :
    pushComponent { root := false, comps := List.replicate j PathComponent.parentDir }
        PathComponent.parentDir
      = { root := false, comps := List.replicate (j + 1) PathComponent.parentDir } := by
  cases j with
  | zero => simp [pushComponent, List.replicate]
  | succ i =>
    have hl : (List.replicate (i + 1) PathComponent.parentDir).getLast?
        = some PathComponent.parentDir := by
      rw [List.replicate_succ', List.getLast?_concat]
    simp only [pushComponent]
    rw [if_pos hl, ← List.replicate_succ']

theorem foldl_push_parents (k : ℕ) :
    ∀ j, (List.replicate k PathComponent.parentDir).foldl pushComponent
        { root := false, comps := List.replicate j PathComponent.parentDir }
      = { root := false, comps := List.replicate (j + k) PathComponent.parentDir } := by
  induction k with
  | zero => intro j; simp
  | succ k ih =>
    intro j
    rw [List.replicate_succ, List.foldl_cons, push_parent_replicate j, ih (j + 1)]
    have : j + 1 + k = j + (k + 1) := by omega
    rw [this]

theorem normalize_components_of_outShape (r : NPath) (h : OutShape r) :
    normalize_components r.toComponents = r := by
  obtain ⟨k, ns, hc, hns, hrk⟩ := h
  rcases r with ⟨root, comps⟩
  simp only at hc hrk
  cases root with
  | true =>
    have hk0 : k = 0 := hrk rfl
    subst hk0
    simp only [List.replicate, List.nil_append] at hc
    rw [← hc] at hns
    show normalize_components ([PathComponent.rootDir] ++ comps) = _
    unfold normalize_components
    rw [List.foldl_append]
    rw [show ([PathComponent.rootDir].foldl pushComponent
        { root := false, comps := [] }) = { root := true, comps := [] } from rfl]
    rw [foldl_push_normals comps hns]
    simp
  | false =>
    subst hc
    show normalize_components ([] ++ (List.replicate k PathComponent.parentDir ++ ns)) = _
    unfold normalize_components
    rw [List.nil_append, List.foldl_append]
    have h0 : (List.replicate k PathComponent.parentDir).foldl pushComponent
        { root := false, comps := [] }
        = { root := false, comps := List.replicate k PathComponent.parentDir } := by
      have := foldl_push_parents k 0
      simpa using this
    rw [h0, foldl_push_normals ns hns]

/-- C10: path normalization is idempotent — `normalize (normalize p) =
normalize p` for every path `p` — so normalized paths are a stable identity
for map keys.  Every normalize result is a (possibly empty) `..` run followed
by normal components, with no `..` run on rooted paths, and such paths are
fixed points of `normalize`. -/
theorem claim_c10_theorem (p : NPath) : p.normalize.normalize = p.normalize := by
  have h : OutShape p.normalize :=
    outShape_foldl p.toComponents { root := false, comps := [] }
      ⟨0, [], rfl, by simp, fun _ => rfl⟩
  exact normalize_components_of_outShape p.normalize h
